import Mathlib

/-!
Verification of the YT-Algorithm core (src/src/main.rs): a watch-event data
model, an attention guardrail, and a feed engine (term extraction, a
first-order Markov walk, tf-idf relevance scoring, query generation).

Modelling conventions:
* Rust `f64` values are modelled as `ℚ`; every comparison and formula the
  claims mention is exact at the small rationals involved, so no rounding of
  the binary floats can change any verdict below.
* tf-idf scores use `ℝ` with `Real.log` for Rust's `f64::ln`.
* A Rust `HashMap` is modelled as an association list in first-insertion
  order (`HashMap` iteration order is unspecified; it only influences the
  documented non-deterministic tie order of equal scores).
* `Vec` indexing that can panic (`nexts[i % nexts.len()]` when `nexts` is
  empty) is modelled with `Option`: `none` is a panic.  `Vec::sort_by` is
  stable, as is `List.insertionSort`, so the sorted list is the same.
-/

/-- `struct VideoWatch` from main.rs. -/
structure VideoWatch where
  watch_time : ℚ
  video_length : ℚ
  video_name : String
  hashtags : List String
  liked : Bool
  disliked : Bool
  watched_at : ℕ
  deriving DecidableEq

/-- `VideoWatch::attention_ratio`: watch time over video length, 0 on a
zero-length video. -/
def VideoWatch.attention_ratio (w : VideoWatch) : ℚ :=
  if w.video_length = 0 then 0 else w.watch_time / w.video_length

/-- `struct Guardrails` from main.rs. -/
structure Guardrails where
  attention_scores : List ℚ
  session_time_secs : ℚ
  current_hour : ℕ
  parent_break_override : Option ℚ
  deriving DecidableEq

namespace Guardrails

/-- `Guardrails::new`. -/
def new (hour : ℕ) : Guardrails :=
  { attention_scores := [], session_time_secs := 0, current_hour := hour,
    parent_break_override := none }

/-- `Guardrails::record`: events watched under 7 seconds are dropped,
otherwise the attention ratio is pushed and the watch time added. -/
def record (g : Guardrails) (w : VideoWatch) : Guardrails :=
  if w.watch_time < 7 then g
  else
    { g with
      attention_scores := g.attention_scores ++ [w.attention_ratio],
      session_time_secs := g.session_time_secs + w.watch_time }

/-- `Guardrails::avg_attention`: mean of the recorded ratios, 1 when none. -/
def avg_attention (g : Guardrails) : ℚ :=
  if g.attention_scores = [] then 1
  else g.attention_scores.sum / (g.attention_scores.length : ℚ)

/-- `Guardrails::break_length_minutes`: parent override verbatim, otherwise
`5 + 5 * (current_hour / 24)`. -/
def break_length_minutes (g : Guardrails) : ℚ :=
  match g.parent_break_override with
  | some mins => mins
  | none => 5 + 5 * ((g.current_hour : ℚ) / 24)

/-- `Guardrails::should_break`: session over 20 minutes, or average attention
under 0.25 with a session over 8 minutes. -/
def should_break (g : Guardrails) : Bool :=
  let session_min := g.session_time_secs / 60
  if 20 < session_min then true
  else if g.avg_attention < 1/4 ∧ 8 < session_min then true
  else false

/-- `Guardrails::reset_daily`: clears the attention scores only. -/
def reset_daily (g : Guardrails) : Guardrails :=
  { g with attention_scores := [] }

end Guardrails

/-- Rust's `str::to_lowercase`, modelled per character on the string's char
list (every token in the repository is ASCII, where the two agree). -/
def lowerStr (s : String) : String := String.mk (s.data.map Char.toLower)

/-- Rust's `str::split_whitespace`: split at whitespace characters and keep
only the non-empty pieces, modelled on the string's char list. -/
def splitWhitespace (s : String) : List String :=
  ((s.data.splitOnP Char.isWhitespace).map String.mk).filter (fun w => w ≠ "")

/-- `struct FeedEngine` from main.rs. -/
structure FeedEngine where
  history : List VideoWatch
  blacklist : List String
  deriving DecidableEq

namespace FeedEngine

/-- `FeedEngine::new`. -/
def new : FeedEngine := { history := [], blacklist := [] }

/-- `FeedEngine::add_watch`: a disliked event's lowercased hashtags and then
its lowercased title words are appended to the blacklist; the event is pushed
to history unconditionally. -/
def add_watch (e : FeedEngine) (w : VideoWatch) : FeedEngine :=
  { history := e.history ++ [w],
    blacklist :=
      if w.disliked then
        e.blacklist ++ w.hashtags.map lowerStr
          ++ splitWhitespace (lowerStr w.video_name)
      else e.blacklist }

/-- Feeding a whole list of events, in order, through `add_watch`. -/
def addAll (e : FeedEngine) (ws : List VideoWatch) : FeedEngine :=
  ws.foldl add_watch e

/-- `FeedEngine::extract_words`, translated step by step: enumerate history,
skip disliked events, compute `repeats = ceil(((i+1)/len) * 3)` and append
that many copies of the event's filtered title words, filtered tags, and
(when liked) the filtered tags once more. -/
def extract_words (e : FeedEngine) : List String :=
  let len := e.history.length
  if len = 0 then []
  else
    e.history.enum.foldl
      (fun words p =>
        if p.2.disliked then words
        else
          let weight : ℚ := ((p.1 : ℚ) + 1) / (len : ℚ)
          let repeats : ℕ := ⌈weight * 3⌉₊
          (List.range repeats).foldl
            (fun ws _ =>
              let ws1 := ws ++
                (splitWhitespace (lowerStr p.2.video_name)).filter
                  (fun t => t ∉ e.blacklist)
              let ws2 := ws1 ++
                (p.2.hashtags.map lowerStr).filter
                  (fun t => t ∉ e.blacklist)
              if p.2.liked then
                ws2 ++ (p.2.hashtags.map lowerStr).filter
                  (fun t => t ∉ e.blacklist)
              else ws2)
            words)
      []

end FeedEngine

/-- The repeat count `ceil(((i+1)/len) * 3)` of the event at 0-based
position `i` in a history of length `len`. -/
def repeatsFor (len i : ℕ) : ℕ := ⌈(((i : ℚ) + 1) / (len : ℚ)) * 3⌉₊

/-- The title words of `w`, lowercased, with blacklisted tokens removed. -/
def titleTokens (bl : List String) (w : VideoWatch) : List String :=
  (splitWhitespace (lowerStr w.video_name)).filter (fun t => t ∉ bl)

/-- The hashtags of `w`, lowercased, with blacklisted tokens removed. -/
def tagTokens (bl : List String) (w : VideoWatch) : List String :=
  (w.hashtags.map lowerStr).filter (fun t => t ∉ bl)

/-- One repeat's worth of tokens for event `w`: filtered title words, then
filtered tags, then the filtered tags once more when the event is liked. -/
def eventBlock (bl : List String) (w : VideoWatch) : List String :=
  titleTokens bl w ++ tagTokens bl w ++ (if w.liked then tagTokens bl w else [])

example : splitWhitespace "How to make pasta" = ["How", "to", "make", "pasta"] := by decide
example : repeatsFor 2 0 = 2 := by norm_num [repeatsFor, Nat.ceil_eq_iff]
example : repeatsFor 2 1 = 3 := by norm_num [repeatsFor]

/-- `chain.entry(k).or_insert_with(Vec::new).push(v)` on the association-list
model of the `HashMap`: push `v` onto `k`'s vector, inserting `k` if new. -/
def chainPush : List (String × List String) → String → String → List (String × List String)
  | [], k, v => [(k, [v])]
  | (k', vs) :: rest, k, v =>
    if k' = k then (k', vs ++ [v]) :: rest else (k', vs) :: chainPush rest k v

/-- Lookup in the association-list model of a `HashMap<String, Vec<String>>`. -/
def lookupChain : List (String × List String) → String → Option (List String)
  | [], _ => none
  | (k, vs) :: rest, t => if k = t then some vs else lookupChain rest t

namespace FeedEngine

/-- `FeedEngine::build_markov`: every adjacent pair of the token sequence
(`words.windows(2)`, i.e. `words.zip words.tail`) contributes one link. -/
def build_markov (words : List String) : List (String × List String) :=
  (words.zip words.tail).foldl (fun chain p => chainPush chain p.1 p.2) []

/-- The loop of `FeedEngine::walk_markov`: `rem` iterations remain, `i` is the
loop index.  `none` models the panic of `nexts[i % nexts.len()]` on an empty
successor vector (impossible for a chain built by `build_markov`). -/
def walkAux (chain : List (String × List String)) :
    ℕ → ℕ → String → List String → Option (List String)
  | 0, _, _, result => some result
  | rem + 1, i, current, result =>
    match lookupChain chain current with
    | none => some result
    | some nexts =>
      match nexts.get? (i % nexts.length) with
      | none => none
      | some pick =>
        walkAux chain rem (i + 1) pick
          (if pick ∈ result then result else result ++ [pick])

/-- `FeedEngine::walk_markov`: start from `start`, follow the chain for
`steps` steps, collecting unique tokens. -/
def walk_markov (chain : List (String × List String)) (start : String)
    (steps : ℕ) : Option (List String) :=
  walkAux chain steps 0 start [start]

/-- The per-event "document" of `FeedEngine::tfidf_top_words`: lowercased
title words then lowercased hashtags, unweighted. -/
def docWords (w : VideoWatch) : List String :=
  splitWhitespace (lowerStr w.video_name) ++ w.hashtags.map lowerStr

/-- The document corpus of `tfidf_top_words`: one document per non-disliked
history entry. -/
def docsOf (e : FeedEngine) : List (List String) :=
  (e.history.filter (fun w => !w.disliked)).map docWords

end FeedEngine

/-- One tf-idf contribution: term frequency of `t` in document `d` times the
global inverse document frequency of `t` over `docs`. -/
noncomputable def scoreTerm (docs : List (List String)) (t : String)
    (d : List String) : ℝ :=
  ((d.count t : ℝ) / (d.length : ℝ)) *
    Real.log ((docs.length : ℝ) / ((docs.filter (fun d' => t ∈ d')).length : ℝ))

/-- `*scores.entry(t).or_insert(0.0) += v` on the association-list model of
the scores `HashMap`: add `v` to `t`'s entry, inserting `t` at the end if new. -/
def upsert : List (String × ℝ) → String → ℝ → List (String × ℝ)
  | [], t, v => [(t, v)]
  | (k, x) :: rest, t, v =>
    if k = t then (k, x + v) :: rest else (k, x) :: upsert rest t v

/-- Lookup in the association-list model of the scores `HashMap`. -/
def lookupScore : List (String × ℝ) → String → Option ℝ
  | [], _ => none
  | (k, x) :: rest, t => if k = t then some x else lookupScore rest t

/-- The scores `HashMap` of `tfidf_top_words` after both loops: for each
document, each distinct word of the document that is not blacklisted gets the
document's tf-idf contribution added to its score. -/
noncomputable def scoresList (docs : List (List String)) (bl : List String) :
    List (String × ℝ) :=
  docs.foldl
    (fun m d =>
      d.dedup.foldl
        (fun m' t => if t ∈ bl then m' else upsert m' t (scoreTerm docs t d))
        m)
    []

namespace FeedEngine

/-- `FeedEngine::tfidf_top_words`: score every non-blacklisted token of the
non-disliked corpus, sort by descending score (`sort_by` is stable, as is
`insertionSort`), take `n`, and keep the words. -/
noncomputable def tfidf_top_words (e : FeedEngine) (n : ℕ) : List String :=
  let docs := docsOf e
  if docs = [] then []
  else
    ((((scoresList docs e.blacklist).insertionSort
        (fun a b => b.2 ≤ a.2)).take n).map Prod.fst)

/-- `FeedEngine::generate_query`: fall back to `["trending"]` on an empty
history or an empty extracted vocabulary, otherwise merge the top-`half`
tf-idf words with a `half`-step Markov walk and truncate to `word_count`.
`some` is a normal return, `none` a panic inside the walk. -/
noncomputable def generate_query (e : FeedEngine) (word_count : ℕ) :
    Option (List String) :=
  if e.history = [] then some ["trending"]
  else
    let words := extract_words e
    if words = [] then some ["trending"]
    else
      let half := word_count / 2
      let tfidf_words := tfidf_top_words e half
      let chain := build_markov words
      let start := if tfidf_words ≠ [] then tfidf_words.headD "" else words.headD ""
      match walk_markov chain start half with
      | none => none
      | some markov_words =>
        let r1 := tfidf_words.foldl (fun r w => if w ∈ r then r else r ++ [w]) []
        let r2 := markov_words.foldl (fun r w => if w ∈ r then r else r ++ [w]) r1
        some (r2.take word_count)

end FeedEngine

example :
    FeedEngine.build_markov ["a", "b", "a", "c"] =
      [("a", ["b", "c"]), ("b", ["a"])] := by decide

example :
    FeedEngine.walk_markov [("a", ["b", "a"]), ("b", ["a"])] "a" 4 =
      some ["a", "b"] := by decide

/-! ### Structure of `extract_words` -/

/-- Flat-mapping a constant block over `range k` is `k` joined copies of it. -/
theorem range_flatMap_const {β : Type} (B : List β) (k : ℕ) :
    (List.range k).flatMap (fun _ => B) = (List.replicate k B).flatten := by
  induction k with
  | zero => simp
  | succ n ih => rw [List.range_succ]; simp [ih, List.replicate_succ']

/-- A left fold whose step appends a block independent of the accumulator is
the accumulator followed by the flat-mapped blocks. -/
theorem foldl_acc_append {α β : Type} (g : List β → α → List β) (f : α → List β)
    (hg : ∀ acc x, g acc x = acc ++ f x) :
    ∀ (l : List α) (ws : List β), l.foldl g ws = ws ++ l.flatMap f := by
  intro l
  induction l with
  | nil => intro ws; simp
  | cons x t ih => intro ws; simp [List.foldl_cons, hg, ih, List.append_assoc]

/-- `extract_words` in closed form: every non-disliked event at 0-based
position `i` contributes `repeatsFor len i` copies of its `eventBlock`. -/
theorem extract_words_structured (e : FeedEngine) :
    e.extract_words =
      e.history.enum.flatMap (fun p =>
        if p.2.disliked then []
        else (List.replicate (repeatsFor e.history.length p.1)
          (eventBlock e.blacklist p.2)).flatten) := by
  by_cases h : e.history.length = 0
  · have h0 : e.history = [] := List.length_eq_zero.mp h
    simp [FeedEngine.extract_words, h0]
  · rw [FeedEngine.extract_words]
    simp only [h, if_false]
    rw [foldl_acc_append _
      (fun p =>
        if p.2.disliked then []
        else (List.replicate (repeatsFor e.history.length p.1)
          (eventBlock e.blacklist p.2)).flatten)]
    · simp
    · intro acc p
      by_cases hd : p.2.disliked
      · simp [hd]
      · simp only [hd, Bool.false_eq_true, if_false]
        rw [foldl_acc_append _ (fun _ => eventBlock e.blacklist p.2)]
        · simp [repeatsFor, range_flatMap_const]
        · intro ws x
          by_cases hl : p.2.liked
          · simp [hl, eventBlock, titleTokens, tagTokens, List.append_assoc]
          · simp [hl, eventBlock, titleTokens, tagTokens, List.append_assoc]

/-- Inside one repeat the title words and the tags appear once each, and the
tags a second time exactly when the event is liked. -/
theorem eventBlock_count (bl : List String) (w : VideoWatch) (t : String) :
    (eventBlock bl w).count t =
      (titleTokens bl w).count t +
        (if w.liked then 2 else 1) * (tagTokens bl w).count t := by
  by_cases hl : w.liked
  · simp [eventBlock, hl, List.count_append]; ring
  · simp [eventBlock, hl, List.count_append]

/-- Every token of an `eventBlock` survived the blacklist filter. -/
theorem mem_eventBlock_not_blacklisted {bl : List String} {w : VideoWatch}
    {t : String} (h : t ∈ eventBlock bl w) : t ∉ bl := by
  rcases List.mem_append.mp h with h' | h'
  · rcases List.mem_append.mp h' with h'' | h''
    · exact of_decide_eq_true (List.mem_filter.mp h'').2
    · exact of_decide_eq_true (List.mem_filter.mp h'').2
  · by_cases hl : w.liked
    · rw [if_pos hl] at h'
      exact of_decide_eq_true (List.mem_filter.mp h').2
    · rw [if_neg hl] at h'
      simp at h'

/-- `extract_words` never emits a blacklisted token. -/
theorem mem_extract_words_not_blacklisted {e : FeedEngine} {t : String}
    (h : t ∈ e.extract_words) : t ∉ e.blacklist := by
  rw [extract_words_structured] at h
  rcases List.mem_flatMap.mp h with ⟨p, _, hp⟩
  by_cases hd : p.2.disliked
  · simp [hd] at hp
  · simp only [hd, Bool.false_eq_true, if_false] at hp
    rcases List.mem_flatten.mp hp with ⟨B, hB, htB⟩
    have : B = eventBlock e.blacklist p.2 := List.eq_of_mem_replicate hB
    exact mem_eventBlock_not_blacklisted (this ▸ htB)

/-- The newest event of a non-empty history always gets 3 repeats. -/
theorem repeatsFor_newest {n : ℕ} (hn : 0 < n) : repeatsFor n (n - 1) = 3 := by
  have h1 : ((n - 1 : ℕ) : ℚ) + 1 = (n : ℚ) := by
    have := Nat.succ_pred_eq_of_pos hn
    exact_mod_cast congrArg (fun k : ℕ => (k : ℚ)) this
  have hn0 : (n : ℚ) ≠ 0 := by exact_mod_cast hn.ne'
  rw [repeatsFor, h1, div_self hn0, one_mul]
  norm_num

/-- With at least three history entries the oldest event gets exactly one
repeat. -/
theorem repeatsFor_oldest {n : ℕ} (hn : 3 ≤ n) : repeatsFor n 0 = 1 := by
  have hn0 : (0 : ℚ) < (n : ℚ) := by exact_mod_cast lt_of_lt_of_le (by norm_num) hn
  have h3 : (3 : ℚ) ≤ (n : ℚ) := by exact_mod_cast hn
  rw [repeatsFor, show (((0 : ℕ) : ℚ) + 1) / (n : ℚ) * 3 = 3 / (n : ℚ) by push_cast; ring]
  rw [Nat.ceil_eq_iff one_ne_zero]
  refine ⟨by simpa using div_pos (show (0 : ℚ) < 3 by norm_num) hn0, ?_⟩
  simpa using (div_le_one hn0).mpr h3

/-! ### Guardrail claims -/

/-- C1 counterexample: with no override and `current_hour = 23` the break
length is `5 + 5 * (23/24) = 235/24 ≈ 9.79` minutes, not the 10.0 the claim
states (the linear scale reaches 10 only at the non-existent hour 24). -/
theorem break_length_hour23_not_ten :
    Guardrails.break_length_minutes (Guardrails.new 23) = 235 / 24 ∧
    (235 / 24 : ℚ) ≠ 10 := by
  constructor
  · norm_num [Guardrails.new, Guardrails.break_length_minutes]
  · norm_num

/-- C1 (amended): a parent override is returned verbatim with no clamping;
otherwise `break_length_minutes` is `5 + 5 * (current_hour / 24)`, which is
5 at hour 0 and `235/24 ≈ 9.79` (not 10) at hour 23. -/
theorem break_length_minutes_spec : ∀ (g : Guardrails),
    (∀ m, g.parent_break_override = some m → g.break_length_minutes = m) ∧
    (g.parent_break_override = none →
      g.break_length_minutes = 5 + 5 * ((g.current_hour : ℚ) / 24)) ∧
    (g.parent_break_override = none ∧ g.current_hour = 0 →
      g.break_length_minutes = 5) ∧
    (g.parent_break_override = none ∧ g.current_hour = 23 →
      g.break_length_minutes = 235 / 24) := by
  intro g
  refine ⟨?_, ?_, ?_, ?_⟩
  · intro m hm; simp [Guardrails.break_length_minutes, hm]
  · intro h; simp [Guardrails.break_length_minutes, h]
  · rintro ⟨h, hh⟩; simp [Guardrails.break_length_minutes, h, hh]
  · rintro ⟨h, hh⟩; norm_num [Guardrails.break_length_minutes, h, hh]

/-- C3 counterexample: at session time exactly 20.0 minutes (1200 s) with one
recorded attention ratio of 1/8, `should_break` is `true` — the doomscroll
branch fires (1/8 < 0.25 and 20 > 8), so "false at exactly 20.0 minutes"
does not hold unconditionally. -/
theorem should_break_at_twenty_true :
    Guardrails.should_break
      { attention_scores := [1/8], session_time_secs := 1200,
        current_hour := 12, parent_break_override := none } = true ∧
    (1200 : ℚ) / 60 = 20 := by
  constructor
  · norm_num [Guardrails.should_break, Guardrails.avg_attention]
  · norm_num

/-- C3 (amended): `should_break` is true iff session time exceeds 20 minutes
or average attention is below 0.25 with session time over 8 minutes; it is
false at exactly 20.0 minutes provided average attention is at least 0.25,
false at exactly 8.0 minutes with attention below 0.25, and false at
attention exactly 0.25 with session time between 8 and 20 minutes. -/
theorem should_break_spec : ∀ (g : Guardrails),
    (g.should_break = true ↔
      20 < g.session_time_secs / 60 ∨
        (g.avg_attention < 1/4 ∧ 8 < g.session_time_secs / 60)) ∧
    (g.session_time_secs / 60 = 20 → 1/4 ≤ g.avg_attention →
      g.should_break = false) ∧
    (g.session_time_secs / 60 = 8 → g.avg_attention < 1/4 →
      g.should_break = false) ∧
    (g.avg_attention = 1/4 → 8 < g.session_time_secs / 60 →
      g.session_time_secs / 60 ≤ 20 → g.should_break = false) := by
  intro g
  have hiff : g.should_break = true ↔
      20 < g.session_time_secs / 60 ∨
        (g.avg_attention < 1/4 ∧ 8 < g.session_time_secs / 60) := by
    show (if 20 < g.session_time_secs / 60 then true
      else if g.avg_attention < 1/4 ∧ 8 < g.session_time_secs / 60 then true
      else false) = true ↔ _
    split_ifs with h1 h2 <;> simp_all
  refine ⟨hiff, ?_, ?_, ?_⟩
  · intro h20 hattn
    refine Bool.eq_false_iff.mpr fun hb => ?_
    rcases hiff.mp hb with h | ⟨ha, _⟩
    · rw [h20] at h; exact absurd h (lt_irrefl 20)
    · exact absurd ha (not_lt.mpr hattn)
  · intro h8 _
    refine Bool.eq_false_iff.mpr fun hb => ?_
    rcases hiff.mp hb with h | ⟨_, h⟩ <;> rw [h8] at h <;> linarith
  · intro ha h8 h20
    refine Bool.eq_false_iff.mpr fun hb => ?_
    rcases hiff.mp hb with h | ⟨h, _⟩
    · linarith
    · rw [ha] at h; exact absurd h (lt_irrefl _)

/-- C4: events under the 7-second qualifying threshold change nothing; at or
above it, `record` appends exactly the attention ratio and adds exactly the
watch duration. -/
theorem record_spec : ∀ (g : Guardrails) (w : VideoWatch),
    (w.watch_time < 7 →
      (g.record w).attention_scores = g.attention_scores ∧
      (g.record w).session_time_secs = g.session_time_secs) ∧
    (7 ≤ w.watch_time →
      (g.record w).attention_scores = g.attention_scores ++ [w.attention_ratio] ∧
      (g.record w).session_time_secs = g.session_time_secs + w.watch_time) := by
  intro g w
  constructor
  · intro h; simp [Guardrails.record, h]
  · intro h; simp [Guardrails.record, not_lt.mpr h]

/-- C10: at watch duration exactly 7.0 seconds the strict `< 7.0` discard
test fails, so the event qualifies: the ratio is appended and the 7 seconds
are added to the session time. -/
theorem record_at_seven_spec (g : Guardrails) (w : VideoWatch)
    (h : w.watch_time = 7) :
    (g.record w).attention_scores = g.attention_scores ++ [w.attention_ratio] ∧
    (g.record w).session_time_secs = g.session_time_secs + 7 := by
  have h7 : ¬ w.watch_time < 7 := by simp [h]
  constructor <;> simp [Guardrails.record, h7, h]

/-- C10 witness: a concrete event watched for exactly 7 of 14 seconds. -/
theorem record_at_seven_witness :
    ((Guardrails.new 12).record ⟨7, 14, "x", [], false, false, 1⟩).attention_scores =
      (Guardrails.new 12).attention_scores ++
        [VideoWatch.attention_ratio ⟨7, 14, "x", [], false, false, 1⟩] ∧
    ((Guardrails.new 12).record ⟨7, 14, "x", [], false, false, 1⟩).session_time_secs =
      (Guardrails.new 12).session_time_secs + 7 :=
  record_at_seven_spec (Guardrails.new 12) ⟨7, 14, "x", [], false, false, 1⟩ rfl

/-- C9: `reset_daily` empties the attention history and preserves the session
time, the hour and the parent override. -/
theorem reset_daily_spec : ∀ (g : Guardrails),
    g.reset_daily.attention_scores = [] ∧
    g.reset_daily.session_time_secs = g.session_time_secs ∧
    g.reset_daily.current_hour = g.current_hour ∧
    g.reset_daily.parent_break_override = g.parent_break_override :=
  fun _ => ⟨rfl, rfl, rfl, rfl⟩

/-! ### Term-extraction claims -/

/-- C2 (amended): every non-disliked event at 1-based position `i` of `N`
history entries has its block of tokens emitted `ceil((i/N)*3)` times — the
newest event 3 times, the oldest `ceil(3/N)` times, which is once whenever
`N ≥ 3` — and within each block the title words and tags appear once each
(excluded tokens skipped) with the tags emitted a second time exactly when
the event is liked. -/
theorem extract_words_recency_spec : ∀ (e : FeedEngine),
    (e.extract_words =
      e.history.enum.flatMap (fun p =>
        if p.2.disliked then []
        else (List.replicate (repeatsFor e.history.length p.1)
          (eventBlock e.blacklist p.2)).flatten)) ∧
    (∀ (bl : List String) (w : VideoWatch) (t : String),
      (eventBlock bl w).count t =
        (titleTokens bl w).count t +
          (if w.liked then 2 else 1) * (tagTokens bl w).count t) ∧
    (0 < e.history.length →
      repeatsFor e.history.length (e.history.length - 1) = 3) ∧
    (3 ≤ e.history.length → repeatsFor e.history.length 0 = 1) :=
  fun e => ⟨extract_words_structured e, eventBlock_count,
    fun h => repeatsFor_newest h, fun h => repeatsFor_oldest h⟩

/-- The older of two concrete qualifying watch events. -/
def wOldest : VideoWatch := ⟨10, 10, "a", [], false, false, 1⟩

/-- The newer of two concrete qualifying watch events. -/
def wNewest : VideoWatch := ⟨10, 10, "b", [], false, false, 2⟩

/-- C2 counterexample: with `N = 2` history entries the oldest event's repeat
count is `ceil((1/2)*3) = 2`, so its token `"a"` is emitted twice — the
claim's "the oldest event repeats once" fails. -/
theorem extract_words_oldest_twice :
    (FeedEngine.new.addAll [wOldest, wNewest]).extract_words =
      ["a", "a", "b", "b", "b"] ∧
    ((FeedEngine.new.addAll [wOldest, wNewest]).extract_words).count "a" = 2 := by
  have he : FeedEngine.new.addAll [wOldest, wNewest] =
      { history := [wOldest, wNewest], blacklist := [] } := rfl
  have r0 : repeatsFor 2 0 = 2 := by norm_num [repeatsFor, Nat.ceil_eq_iff]
  have r1 : repeatsFor 2 1 = 3 := by norm_num [repeatsFor]
  have h := extract_words_structured (FeedEngine.new.addAll [wOldest, wNewest])
  rw [he] at h
  rw [show ([wOldest, wNewest] : List VideoWatch).enum =
    [(0, wOldest), (1, wNewest)] from rfl] at h
  simp only [List.flatMap_cons, List.flatMap_nil, List.append_nil,
    List.length_cons, List.length_nil] at h
  rw [show (0 : ℕ) + 1 + 1 = 2 from rfl] at h
  simp only [show wOldest.disliked = false from rfl,
    show wNewest.disliked = false from rfl, Bool.false_eq_true, if_false,
    r0, r1, show eventBlock [] wOldest = ["a"] from by decide,
    show eventBlock [] wNewest = ["b"] from by decide] at h
  rw [he, h]
  constructor
  · rfl
  · rfl

/-! ### Markov-walk claims -/

/-- The walk loop keeps the result duplicate-free: a successor is appended
only when not already present. -/
theorem walkAux_nodup (chain : List (String × List String)) :
    ∀ (rem i : ℕ) (current : String) (result : List String),
      result.Nodup →
        ∀ r, FeedEngine.walkAux chain rem i current result = some r →
          r.Nodup := by
  intro rem
  induction rem with
  | zero =>
    intro i current result hnd r hr
    simp only [FeedEngine.walkAux, Option.some.injEq] at hr
    exact hr ▸ hnd
  | succ n ih =>
    intro i current result hnd r hr
    rw [FeedEngine.walkAux] at hr
    cases hl : lookupChain chain current with
    | none =>
      simp only [hl, Option.some.injEq] at hr
      exact hr ▸ hnd
    | some nexts =>
      simp only [hl] at hr
      cases hg : nexts.get? (i % nexts.length) with
      | none => simp only [hg] at hr; exact Option.noConfusion hr
      | some pick =>
        simp only [hg] at hr
        by_cases hp : pick ∈ result
        · rw [if_pos hp] at hr
          exact ih _ _ _ hnd _ hr
        · rw [if_neg hp] at hr
          refine ih _ _ _ ?_ _ hr
          rw [List.nodup_append]
          exact ⟨hnd, List.nodup_singleton _, by simpa using hp⟩

/-- C8: the walk's result never contains a duplicate token (even though the
walk may revisit tokens internally); the successor chosen at loop index `i`
is the one at position `i mod (number of successors)`; and the walk stops as
soon as the current token has no successors. -/
theorem walk_markov_spec :
    ∀ (chain : List (String × List String)) (start : String) (steps : ℕ),
    (∀ r, FeedEngine.walk_markov chain start steps = some r → r.Nodup) ∧
    (lookupChain chain start = none →
      FeedEngine.walk_markov chain start steps = some [start]) ∧
    (∀ (rem i : ℕ) (current : String) (result nexts : List String)
        (pick : String),
      lookupChain chain current = some nexts →
      nexts.get? (i % nexts.length) = some pick →
      FeedEngine.walkAux chain (rem + 1) i current result =
        FeedEngine.walkAux chain rem (i + 1) pick
          (if pick ∈ result then result else result ++ [pick])) ∧
    (∀ (rem i : ℕ) (current : String) (result : List String),
      lookupChain chain current = none →
      FeedEngine.walkAux chain (rem + 1) i current result = some result) := by
  intro chain start steps
  refine ⟨?_, ?_, ?_, ?_⟩
  · intro r hr
    exact walkAux_nodup chain steps 0 start [start] (List.nodup_singleton _) r hr
  · intro h
    cases steps with
    | zero => rfl
    | succ n => simp [FeedEngine.walk_markov, FeedEngine.walkAux, h]
  · intro rem i current result nexts pick hl hg
    rw [List.get?_eq_getElem?] at hg
    simp [FeedEngine.walkAux, hl, hg]
  · intro rem i current result h
    simp [FeedEngine.walkAux, h]

/-! ### tf-idf score-map lemmas -/

/-- Looking up after an upsert: the upserted key reads its old value plus the
increment (absent keys count 0), every other key is untouched. -/
theorem lookupScore_upsert (m : List (String × ℝ)) (k : String) (v : ℝ) :
    ∀ s, lookupScore (upsert m k v) s =
      if s = k then some ((lookupScore m k).getD 0 + v)
      else lookupScore m s := by
  induction m with
  | nil =>
    intro s
    by_cases h : s = k
    · subst h; simp [upsert, lookupScore]
    · have h' : ¬ k = s := fun hh => h hh.symm
      simp [upsert, lookupScore, h, h']
  | cons p rest ih =>
    intro s
    obtain ⟨k', x⟩ := p
    by_cases hk : k' = k
    · subst hk
      by_cases hs : s = k'
      · subst hs; simp [upsert, lookupScore]
      · have h' : ¬ k' = s := fun hh => hs hh.symm
        simp [upsert, lookupScore, hs, h']
    · by_cases hs : s = k'
      · subst hs
        have hsk : ¬ s = k := hk
        simp [upsert, lookupScore, hk, hsk]
      · have h1 : ¬ k' = s := fun hh => hs hh.symm
        simp [upsert, lookupScore, hk, h1, hs, ih s]

/-- One document's inner scoring loop over its distinct words: a non-blacklisted
word of the document gains exactly one `scoreTerm` contribution; everything
else keeps its score. -/
theorem lookupScore_innerLoop (docs : List (List String)) (bl : List String)
    (d : List String) :
    ∀ (ks : List String), ks.Nodup → ∀ (m : List (String × ℝ)) (s : String),
      lookupScore
        (ks.foldl (fun m' t =>
          if t ∈ bl then m' else upsert m' t (scoreTerm docs t d)) m) s =
        if s ∈ ks ∧ s ∉ bl then
          some ((lookupScore m s).getD 0 + scoreTerm docs s d)
        else lookupScore m s := by
  intro ks
  induction ks with
  | nil => intro _ m s; simp
  | cons t ks ih =>
    intro hnd m s
    obtain ⟨htk, hks⟩ := List.nodup_cons.mp hnd
    rw [List.foldl_cons, ih hks]
    by_cases hsbl : s ∈ bl
    · simp only [hsbl, not_true_eq_false, and_false, if_false]
      by_cases htbl : t ∈ bl
      · simp [htbl]
      · have hst : ¬ s = t := fun h => htbl (h ▸ hsbl)
        simp [htbl, lookupScore_upsert, hst]
    · by_cases hst : s = t
      · subst hst
        have hsk : s ∉ ks := htk
        simp [hsk, hsbl, lookupScore_upsert]
      · by_cases htbl : t ∈ bl
        · simp [htbl, List.mem_cons, hst]
        · simp [htbl, lookupScore_upsert, hst, List.mem_cons]

/-- Score accumulated over a list of documents starting from any map: a
non-blacklisted token gains one `scoreTerm` contribution per processed
document containing it. -/
theorem lookupScore_scoresLoop (docs : List (List String)) (bl : List String) :
    ∀ (P : List (List String)) (m : List (String × ℝ)) (s : String), s ∉ bl →
      lookupScore
        (P.foldl (fun acc d =>
          d.dedup.foldl (fun m' t =>
            if t ∈ bl then m' else upsert m' t (scoreTerm docs t d)) acc) m) s =
        if (P.filter (fun d => s ∈ d)) = [] then lookupScore m s
        else some ((lookupScore m s).getD 0 +
          ((P.filter (fun d => s ∈ d)).map (fun d => scoreTerm docs s d)).sum) := by
  intro P
  induction P with
  | nil => intro m s _; simp
  | cons d P ih =>
    intro m s hs
    rw [List.foldl_cons, ih _ s hs,
      lookupScore_innerLoop docs bl d d.dedup (List.nodup_dedup d)]
    by_cases hd : s ∈ d
    · have hd' : s ∈ d.dedup := List.mem_dedup.mpr hd
      by_cases hP : P.filter (fun d' => s ∈ d') = []
      · simp [List.filter_cons, hd, hd', hs, hP]
      · simp [List.filter_cons, hd, hd', hs, hP, add_assoc]
    · have hd' : s ∉ d.dedup := fun h => hd (List.mem_dedup.mp h)
      by_cases hP : P.filter (fun d' => s ∈ d') = [] <;>
        simp [List.filter_cons, hd, hd', hP]

/-- The final scores map of `tfidf_top_words`, characterised: a
non-blacklisted token's entry is exactly the sum of its per-document
contributions over the documents containing it, and tokens in no document
have no entry. -/
theorem lookupScore_scoresList (docs : List (List String)) (bl : List String)
    (s : String) (hs : s ∉ bl) :
    lookupScore (scoresList docs bl) s =
      if (docs.filter (fun d => s ∈ d)) = [] then none
      else some (((docs.filter (fun d => s ∈ d)).map
        (fun d => scoreTerm docs s d)).sum) := by
  have h := lookupScore_scoresLoop docs bl docs [] s hs
  rw [scoresList]
  simpa [lookupScore] using h

/-- A key present after an upsert was present before or is the upserted key. -/
theorem mem_keys_upsert (m : List (String × ℝ)) (k : String) (v : ℝ)
    (s : String) (h : s ∈ (upsert m k v).map Prod.fst) :
    s ∈ m.map Prod.fst ∨ s = k := by
  induction m with
  | nil => right; simpa [upsert] using h
  | cons p rest ih =>
    obtain ⟨k', x⟩ := p
    by_cases hk : k' = k
    · subst hk
      simp only [upsert, if_pos rfl] at h
      left; simpa using h
    · simp only [upsert, if_neg hk, List.map_cons, List.mem_cons] at h
      rcases h with h | h
      · left; simp [h]
      · rcases ih h with h' | h'
        · left; simp [h']
        · right; exact h'

/-- The inner scoring loop only ever inserts non-blacklisted keys. -/
theorem innerLoop_keys_not_blacklisted (docs : List (List String))
    (bl : List String) (d : List String) :
    ∀ (ks : List String) (m : List (String × ℝ)),
      (∀ s ∈ m.map Prod.fst, s ∉ bl) →
      ∀ s ∈ ((ks.foldl (fun m' t =>
        if t ∈ bl then m' else upsert m' t (scoreTerm docs t d)) m).map
          Prod.fst), s ∉ bl := by
  intro ks
  induction ks with
  | nil => intro m hm; simpa using hm
  | cons t ks ih =>
    intro m hm
    rw [List.foldl_cons]
    apply ih
    intro s hsk
    by_cases htbl : t ∈ bl
    · rw [if_pos htbl] at hsk; exact hm s hsk
    · rw [if_neg htbl] at hsk
      rcases mem_keys_upsert _ _ _ _ hsk with h | h
      · exact hm s h
      · exact h ▸ htbl

/-- No key of the scores map is blacklisted. -/
theorem scoresList_keys_not_blacklisted (docs : List (List String))
    (bl : List String) :
    ∀ s ∈ (scoresList docs bl).map Prod.fst, s ∉ bl := by
  suffices h : ∀ (P : List (List String)) (m : List (String × ℝ)),
      (∀ s ∈ m.map Prod.fst, s ∉ bl) →
      ∀ s ∈ ((P.foldl (fun acc d =>
        d.dedup.foldl (fun m' t =>
          if t ∈ bl then m' else upsert m' t (scoreTerm docs t d)) acc)
            m).map Prod.fst), s ∉ bl by
    exact h docs [] (by simp)
  intro P
  induction P with
  | nil => intro m hm; simpa using hm
  | cons d P ih =>
    intro m hm
    rw [List.foldl_cons]
    exact ih _ (innerLoop_keys_not_blacklisted docs bl d d.dedup m hm)

instance : IsTotal (String × ℝ) (fun a b => b.2 ≤ a.2) :=
  ⟨fun a b => le_total b.2 a.2⟩

instance : IsTrans (String × ℝ) (fun a b => b.2 ≤ a.2) :=
  ⟨fun _ _ _ h1 h2 => le_trans h2 h1⟩

/-- `tfidf_top_words` unconditionally equals the word column of the first `n`
entries of the stably descending-sorted scores map (on an empty corpus both
sides are empty). -/
theorem tfidf_top_words_eq (e : FeedEngine) (n : ℕ) :
    e.tfidf_top_words n =
      (((scoresList (FeedEngine.docsOf e) e.blacklist).insertionSort
        (fun a b => b.2 ≤ a.2)).take n).map Prod.fst := by
  by_cases h : FeedEngine.docsOf e = []
  · simp [FeedEngine.tfidf_top_words, h, scoresList]
  · simp [FeedEngine.tfidf_top_words, h]

/-- `tfidf_top_words` never returns a blacklisted token. -/
theorem mem_tfidf_top_words_not_blacklisted {e : FeedEngine} {n : ℕ}
    {t : String} (h : t ∈ e.tfidf_top_words n) : t ∉ e.blacklist := by
  rw [tfidf_top_words_eq] at h
  rcases List.mem_map.mp h with ⟨p, hp, hpt⟩
  have hp2 : p ∈ (scoresList (FeedEngine.docsOf e) e.blacklist).insertionSort
      (fun a b => b.2 ≤ a.2) := List.take_subset _ _ hp
  have hp3 : p ∈ scoresList (FeedEngine.docsOf e) e.blacklist :=
    (List.perm_insertionSort _ _).subset hp2
  exact hpt ▸ scoresList_keys_not_blacklisted _ _ _
    (List.mem_map.mpr ⟨p, hp3, rfl⟩)

/-! ### Relevance-scoring and exclusion claims -/

/-- C7: each non-disliked event is one document (lowercased title words plus
lowercased tags); a non-blacklisted token's accumulated score is the sum over
documents containing it of `(count/doc_len) * ln(total_docs/docs_with_word)`;
blacklisted tokens are never returned; the result is the word column of the
first `n` entries of the descending-sorted scores map; and the result is
empty when there is no non-disliked history. -/
theorem tfidf_top_words_spec : ∀ (e : FeedEngine) (n : ℕ),
    (FeedEngine.docsOf e =
      (e.history.filter (fun w => !w.disliked)).map FeedEngine.docWords) ∧
    (e.history.filter (fun w => !w.disliked) = [] →
      e.tfidf_top_words n = []) ∧
    (∀ t, t ∈ e.tfidf_top_words n → t ∉ e.blacklist) ∧
    (∀ t, t ∉ e.blacklist →
      lookupScore (scoresList (FeedEngine.docsOf e) e.blacklist) t =
        if ((FeedEngine.docsOf e).filter (fun d => t ∈ d)) = [] then none
        else some ((((FeedEngine.docsOf e).filter (fun d => t ∈ d)).map
          (fun d => ((d.count t : ℝ) / (d.length : ℝ)) *
            Real.log (((FeedEngine.docsOf e).length : ℝ) /
              ((((FeedEngine.docsOf e).filter
                (fun d' => t ∈ d')).length : ℝ))))).sum)) ∧
    (∃ l : List (String × ℝ),
      l.Perm (scoresList (FeedEngine.docsOf e) e.blacklist) ∧
      l.Sorted (fun a b => b.2 ≤ a.2) ∧
      e.tfidf_top_words n = (l.take n).map Prod.fst) := by
  intro e n
  refine ⟨rfl, ?_, ?_, ?_, ?_⟩
  · intro h
    simp [FeedEngine.tfidf_top_words, FeedEngine.docsOf, h]
  · intro t ht
    exact mem_tfidf_top_words_not_blacklisted ht
  · intro t ht
    exact lookupScore_scoresList _ _ t ht
  · exact ⟨_, List.perm_insertionSort _ _, List.sorted_insertionSort _ _,
      tfidf_top_words_eq e n⟩

/-- The blacklist only ever grows under `add_watch`. -/
theorem blacklist_mono_add_watch (e : FeedEngine) (w : VideoWatch)
    {t : String} (h : t ∈ e.blacklist) : t ∈ (e.add_watch w).blacklist := by
  by_cases hd : w.disliked <;>
    simp [FeedEngine.add_watch, hd, List.mem_append, h]

/-- The blacklist only ever grows under any further sequence of watches. -/
theorem blacklist_mono_addAll (ws : List VideoWatch) :
    ∀ (e : FeedEngine) {t : String}, t ∈ e.blacklist →
      t ∈ (e.addAll ws).blacklist := by
  induction ws with
  | nil => intro e t h; exact h
  | cons w ws ih =>
    intro e t h
    exact ih _ (blacklist_mono_add_watch e w h)

/-- C5: a disliked event is still appended to history, each of its lowercased
tags and lowercased title words lands in the blacklist, stays there under any
further `add_watch` calls (in particular a later liked event reusing the same
tag), and from then on neither `extract_words` nor `tfidf_top_words` ever
emits that token. -/
theorem add_watch_dislike_exclusion_spec :
    ∀ (e : FeedEngine) (w : VideoWatch) (ws : List VideoWatch) (t : String),
    ((e.add_watch w).history = e.history ++ [w]) ∧
    (w.disliked = true → t ∈ w.hashtags.map lowerStr →
      t ∈ ((e.add_watch w).addAll ws).blacklist ∧
      t ∉ ((e.add_watch w).addAll ws).extract_words ∧
      ∀ n, t ∉ ((e.add_watch w).addAll ws).tfidf_top_words n) ∧
    (w.disliked = true → t ∈ splitWhitespace (lowerStr w.video_name) →
      t ∈ ((e.add_watch w).addAll ws).blacklist ∧
      t ∉ ((e.add_watch w).addAll ws).extract_words ∧
      ∀ n, t ∉ ((e.add_watch w).addAll ws).tfidf_top_words n) := by
  intro e w ws t
  have hout : t ∈ ((e.add_watch w).addAll ws).blacklist →
      t ∉ ((e.add_watch w).addAll ws).extract_words ∧
      ∀ n, t ∉ ((e.add_watch w).addAll ws).tfidf_top_words n := by
    intro hbl
    refine ⟨fun hx => mem_extract_words_not_blacklisted hx hbl,
      fun n hx => mem_tfidf_top_words_not_blacklisted hx hbl⟩
  refine ⟨rfl, ?_, ?_⟩
  · intro hd ht
    have hbl : t ∈ (e.add_watch w).blacklist := by
      simp [FeedEngine.add_watch, hd, List.mem_append, ht]
    have h := blacklist_mono_addAll ws _ hbl
    exact ⟨h, hout h⟩
  · intro hd ht
    have hbl : t ∈ (e.add_watch w).blacklist := by
      simp [FeedEngine.add_watch, hd, List.mem_append, ht]
    have h := blacklist_mono_addAll ws _ hbl
    exact ⟨h, hout h⟩

/-! ### Query-generation claims -/

/-- C6: `generate_query` returns exactly `["trending"]` when the history is
empty, and also whenever the extracted token sequence is empty. -/
theorem generate_query_fallback_spec : ∀ (e : FeedEngine) (n : ℕ),
    (e.history = [] → e.generate_query n = some ["trending"]) ∧
    (e.extract_words = [] → e.generate_query n = some ["trending"]) := by
  intro e n
  constructor
  · intro h
    simp [FeedEngine.generate_query, h]
  · intro h
    by_cases hh : e.history = []
    · simp [FeedEngine.generate_query, hh]
    · simp [FeedEngine.generate_query, hh, h]

/-- The disliked sample event from main.rs. -/
def wDisliked : VideoWatch :=
  ⟨3, 600, "Clickbait garbage you wont believe", ["shocking", "viral"],
    false, true, 4⟩

example : (FeedEngine.new.addAll [wDisliked]).extract_words = [] := by
  rw [extract_words_structured]; rfl
